import Mathlib

/-!
Shallow embedding of the resume-shortlisting engine.

Source files embedded here:
- supabase/functions/calculate-similarity/index.ts
  (tokenize, calculateTfIdf, cosineSimilarity, findMatchedKeywords,
   and the ranking portion of the request handler)
- the process-resume edge function
  (extractEmail, extractName, extractSkills, cleanText)

Texts are modelled as lists of characters, tokens as lists of characters,
JavaScript Map objects as insertion-ordered association lists, and
floating-point numbers as real numbers.
-/

/-! ## Character classes

JavaScript character classes used by the source regexes.  Core already
provides the exact ASCII ranges: Char.isLower is a-z, Char.isDigit is 0-9,
Char.isAlpha is A-Za-z.  Char.isWhitespace covers space, tab, CR and LF,
which stands in for the JS whitespace class. -/

/-- Text = JS string, modelled as its character list. -/
abbrev Text := List Char

/-- Token produced by the tokenizer (a JS string). -/
abbrev Token := List Char

/-- Membership in the regex class given by a-z0-9 (the source applies it
after toLowerCase, so lower-case letters suffice). -/
def isTokenChar (c : Char) : Bool := c.isLower || c.isDigit

/-- Membership in the JS word-character class A-Za-z0-9 and underscore,
used by backslash-w and by word boundaries. -/
def isWordChar (c : Char) : Bool := c.isAlpha || c.isDigit || c == '_'

/-! ## Tokenizer (index.ts lines 14-20)

JS: text.toLowerCase().replace(pattern for not a-z0-9 or whitespace, one
space).split(on whitespace runs).filter(word.length > 2).

Splitting on every single whitespace character instead of on whitespace
runs produces the same list after the length filter: the extra chunks a
per-character split creates are all empty. -/

/-- Split a character list at every occurrence of characters satisfying p;
separators are consumed and empty chunks are kept (JS split semantics for
a single-character separator). -/
def splitOnP (p : Char → Bool) : Text → List Text
  | [] => [[]]
  | c :: rest =>
    if p c then [] :: splitOnP p rest
    else
      match splitOnP p rest with
      | [] => [[c]]
      | w :: ws => (c :: w) :: ws

/-- The character-replacement step of tokenize: any character outside
a-z0-9 and whitespace becomes a single space. -/
def tokenizeReplace (c : Char) : Char :=
  if isTokenChar c || c.isWhitespace then c else ' '

/-- tokenize from calculate-similarity/index.ts: lower-case, replace
non-alphanumeric non-whitespace characters with a space, split on
whitespace, keep words of length strictly greater than 2. -/
def tokenize (text : Text) : List Token :=
  ((splitOnP Char.isWhitespace ((text.map Char.toLower).map tokenizeReplace)).filter
    (fun w => 2 < w.length))

/-! ## Text cleaning and metadata extraction (process-resume function) -/

/-- One pass of whitespace-run collapsing; the flag records whether the
previous character was whitespace (in which case further whitespace is
dropped rather than emitted). -/
def collapseWsAux : Text → Bool → Text
  | [], _ => []
  | c :: rest, inRun =>
    if c.isWhitespace then
      if inRun then collapseWsAux rest true else ' ' :: collapseWsAux rest true
    else c :: collapseWsAux rest false

/-- JS replace of every whitespace run by a single space. -/
def collapseWs (s : Text) : Text := collapseWsAux s false

/-- JS String.prototype.trim: drop leading and trailing whitespace. -/
def jsTrim (s : Text) : Text :=
  ((s.dropWhile Char.isWhitespace).reverse.dropWhile Char.isWhitespace).reverse

/-- Characters kept by the cleanText replacement (word characters,
whitespace, at sign, dot, hyphen). -/
def isCleanKeep (c : Char) : Bool :=
  isWordChar c || c.isWhitespace || c == '@' || c == '.' || c == '-'

/-- cleanText from the process-resume function: collapse whitespace runs
to a single space, replace every character outside the word/whitespace/
at/dot/hyphen class with a space, trim. -/
def cleanText (text : Text) : Text :=
  jsTrim ((collapseWs text).map (fun c => if isCleanKeep c then c else ' '))

/-- extractName from the process-resume function: split on newlines, keep
non-blank lines, accept the trimmed first line as the name when it is
shorter than 50 characters and contains no digit. -/
def extractName (text : Text) : Option Text :=
  let lines := (splitOnP (fun c => c == '\n') text).filter
    (fun line => 0 < (jsTrim line).length)
  match lines with
  | [] => none
  | line :: _ =>
    let firstLine := jsTrim line
    if firstLine.length < 50 && !(firstLine.any Char.isDigit) then some firstLine
    else none

/-! ## Email extraction (process-resume function)

The regex is localPart at domain dot tld, where the local part is one or
more of letters, digits, dot, underscore, percent, plus, hyphen; the
domain is one or more of letters, digits, dot, hyphen; and the tld is two
or more letters.  JS String.match with a non-global regex returns the
leftmost match, with each greedy quantifier taking as many characters as
possible subject to the rest of the pattern matching (backtracking). -/

/-- Local-part characters of the email regex. -/
def isLocalChar (c : Char) : Bool :=
  c.isAlpha || c.isDigit || c == '.' || c == '_' || c == '%' || c == '+' || c == '-'

/-- Domain characters of the email regex. -/
def isDomainChar (c : Char) : Bool := c.isAlpha || c.isDigit || c == '.' || c == '-'

/-- Backtracking over the greedy one-or-more domain quantifier: try to let
it consume j characters of s (largest first), requiring a literal dot next
and at least two letters after the dot; the two-or-more letter quantifier
is itself greedy and takes the whole following letter run.  Returns the
total number of characters of s consumed by domain, dot and tld. -/
def tryDomainLen (s : Text) : ℕ → Option ℕ
  | 0 => none
  | j + 1 =>
    if s.get? (j + 1) = some '.' ∧ 2 ≤ ((s.drop (j + 2)).takeWhile Char.isAlpha).length
    then some ((j + 1) + 1 + ((s.drop (j + 2)).takeWhile Char.isAlpha).length)
    else tryDomainLen s j

/-- Attempt to match the email pattern at the start of s, returning the
matched characters.  The local part must be the maximal local-character
run: a shorter run would have to be followed by the at sign, but every
character it would stop at is a local character and the at sign is not. -/
def emailMatchAt (s : Text) : Option Text :=
  let a := (s.takeWhile isLocalChar).length
  if a = 0 then none
  else if s.get? a = some '@' then
    let rest := s.drop (a + 1)
    match tryDomainLen rest ((rest.takeWhile isDomainChar).length) with
    | some m => some (s.take (a + 1 + m))
    | none => none
  else none

/-- extractEmail from the process-resume function: the leftmost match of
the email regex, or none. -/
def extractEmail (text : Text) : Option Text :=
  (List.range (text.length + 1)).findSome? (fun i => emailMatchAt (text.drop i))

/-! ## Skill extraction (process-resume function) -/

/-- The fixed controlled vocabulary, verbatim from the source; the C++
entry contains regex escapes (backslash before each plus). -/
def commonSkills : List String :=
  ["javascript", "typescript", "python", "java", "c\\+\\+", "c#", "ruby", "php",
   "swift", "kotlin",
   "react", "angular", "vue", "node", "express", "django", "flask", "spring",
   "laravel",
   "sql", "mongodb", "postgresql", "mysql", "redis", "elasticsearch",
   "aws", "azure", "gcp", "docker", "kubernetes", "jenkins", "git",
   "machine learning", "deep learning", "nlp", "computer vision", "data science",
   "html", "css", "sass", "tailwind", "bootstrap",
   "rest api", "graphql", "microservices", "agile", "scrum",
   "tensorflow", "pytorch", "scikit-learn", "pandas", "numpy",
   "communication", "leadership", "teamwork", "problem solving",
   "project management"]

/-- Interpretation of a regex escape sequence inside the constructed
pattern: a backslash makes the next character literal (the vocabulary only
uses backslash-plus). -/
def regexUnescape : Text → Text
  | [] => []
  | '\\' :: c :: rest => c :: regexUnescape rest
  | c :: rest => c :: regexUnescape rest

/-- The output transformation skill.replace(double-backslash-plus regex,
plus sign): scan for a literal backslash, backslash, plus in the skill
string and replace it by a plus.  Note the regex in the source denotes TWO
literal backslashes, so single-backslash escapes are left untouched. -/
def unescapeOutput : Text → Text
  | '\\' :: '\\' :: '+' :: rest => '+' :: unescapeOutput rest
  | c :: rest => c :: unescapeOutput rest
  | [] => []

/-- True when the character at index i of s (if any) is a word character. -/
def wordCharAt (s : Text) (i : ℕ) : Bool :=
  match s.get? i with
  | some c => isWordChar c
  | none => false

/-- JS word boundary at position p of s: the characters on the two sides
of the position differ in word-character-ness (positions outside the
string count as non-word). -/
def boundaryAt (s : Text) (p : ℕ) : Bool :=
  (if p = 0 then false else wordCharAt s (p - 1)) != wordCharAt s p

/-- Semantics of the constructed regex: word boundary, the literal label,
word boundary, tested anywhere in the text. -/
def matchesWholeWord (label : Text) (text : Text) : Bool :=
  (List.range (text.length + 1)).any (fun p =>
    boundaryAt text p && ((text.drop p).take label.length == label)
      && boundaryAt text (p + label.length))

/-- JS spread of a Set: deduplicate keeping the first occurrence. -/
def dedupFirst : List Text → List Text
  | [] => []
  | x :: rest => x :: (dedupFirst rest).filter (fun y => y ≠ x)

/-- extractSkills from the process-resume function: lower-case the text,
test each vocabulary label as a case-insensitive whole-word regex (the
labels are already lower-case, so matching on the lowered text is exact),
collect the labels that match after applying the output unescape step,
and deduplicate. -/
def extractSkills (text : Text) : List Text :=
  let lowerText := text.map Char.toLower
  let foundSkills := (commonSkills.map String.data).foldl
    (fun acc skill =>
      if matchesWholeWord (regexUnescape skill) lowerText
      then acc ++ [unescapeOutput skill] else acc) []
  dedupFirst foundSkills

/-! ## JS Map objects

A JS Map is an insertion-ordered association from keys to values; set
overwrites in place when the key is present and appends otherwise.  Keys
here are tokens, values are numbers (modelled as reals). -/

/-- Insertion-ordered token-to-real map (the JS Map of the source). -/
abbrev JMap := List (Token × ℝ)

/-- Map.prototype.get, returning none for an absent key. -/
def JMap.get : JMap → Token → Option ℝ
  | [], _ => none
  | (k, v) :: rest, t => if k = t then some v else JMap.get rest t

/-- Map.prototype.set: overwrite the entry in place when the key exists,
append otherwise. -/
def JMap.set : JMap → Token → ℝ → JMap
  | [], k, v => [(k, v)]
  | (k', v') :: rest, k, v =>
    if k' = k then (k, v) :: rest else (k', v') :: JMap.set rest k v

/-- The keys of a map, in insertion order. -/
def JMap.keys (m : JMap) : List Token := m.map Prod.fst

/-! ## TF-IDF (index.ts lines 22-44) -/

/-- The document-frequency count that appears inline in calculateTfIdf:
the number of corpus token lists containing the token. -/
def documentFrequency (t : Token) (corpus : List (List Token)) : ℕ :=
  (corpus.filter (fun doc => decide (t ∈ doc))).length

/-- calculateTfIdf from index.ts: build the term-frequency map by adding
1/tokenCount per occurrence, build the idf map with
log(docCount / (docsWithToken + 1)) per token of the document, and
multiply entrywise over the tf entries. -/
noncomputable def calculateTfIdf (tokens : List Token) (allTokens : List (List Token)) :
    JMap :=
  let tokenCount := tokens.length
  let tf := tokens.foldl
    (fun m token => JMap.set m token ((JMap.get m token).getD 0 + 1 / (tokenCount : ℝ))) []
  let docCount := allTokens.length
  let idf := tokens.foldl
    (fun m token =>
      JMap.set m token
        (Real.log ((docCount : ℝ) / ((documentFrequency token allTokens : ℝ) + 1))))
    []
  tf.foldl (fun m p => JMap.set m p.1 (p.2 * ((JMap.get idf p.1).getD 0))) []

/-! ## Cosine similarity (index.ts lines 46-66) -/

/-- The three accumulators of the cosineSimilarity loop: dot product and
the two squared magnitudes, summed over the union of the key sets of the
two vectors (absent keys read as 0). -/
noncomputable def dotMags (vec1 vec2 : JMap) : ℝ × ℝ × ℝ :=
  let allKeys := (JMap.keys vec1 ++ JMap.keys vec2).dedup
  ((allKeys.map (fun k => ((JMap.get vec1 k).getD 0) * ((JMap.get vec2 k).getD 0))).sum,
   (allKeys.map (fun k => ((JMap.get vec1 k).getD 0) ^ 2)).sum,
   (allKeys.map (fun k => ((JMap.get vec2 k).getD 0) ^ 2)).sum)

open scoped Classical in
/-- cosineSimilarity from index.ts: 0 when either squared magnitude is 0,
otherwise the dot product divided by the product of the magnitudes. -/
noncomputable def cosineSimilarity (vec1 vec2 : JMap) : ℝ :=
  let d := (dotMags vec1 vec2).1
  let mag1 := (dotMags vec1 vec2).2.1
  let mag2 := (dotMags vec1 vec2).2.2
  if mag1 = 0 ∨ mag2 = 0 then 0
  else d / (Real.sqrt mag1 * Real.sqrt mag2)

/-! ## Matched keywords (index.ts lines 68-87) -/

/-- findMatchedKeywords from index.ts: the distinct job tokens (spread of
a Set, first-occurrence order) that occur among the resume tokens, sorted
stably by combined occurrence count descending, truncated to topN.
JS Array.prototype.sort is a stable sort; a stable sort under a given
total preorder has a unique result, here given by insertion sort. -/
def findMatchedKeywords (jobTokens resumeTokens : List Token) (topN : ℕ) : List Token :=
  let matched := (dedupFirst jobTokens).filter (fun t => decide (t ∈ resumeTokens))
  let frequency := fun t => jobTokens.count t + resumeTokens.count t
  (matched.insertionSort (fun a b => frequency b ≤ frequency a)).take topN

/-! ## The ranking run (index.ts lines 104-164)

The handler, restricted to the pure ranking engine of the specification:
database lookups and authentication belong to the external collaborator
layer, so the run takes the query text and the (identifier, text) pairs
directly.  The handler rejects an empty identifier list up front
("Missing required fields"); with the candidates supplied as pairs this
is the condition that the candidate list is empty. -/

/-- One row of the ranked output, as assembled by the handler. -/
structure SimilarityResult where
  resumeId : String
  similarity : ℝ
  matchedKeywords : List Token
  ranking : ℕ

/-- The reported percentage: Math.round(similarity * 100 * 100) / 100.
Math.round x is the floor of x + 1/2. -/
noncomputable def similarityPercent (sim : ℝ) : ℝ :=
  ((⌊sim * 100 * 100 + 1 / 2⌋ : ℤ) : ℝ) / 100

/-- The per-candidate record pushed into the results array before the
sort: identifier, rounded percentage, matched keywords. -/
noncomputable def rawResults (queryText : Text) (candidates : List (String × Text)) :
    List (String × ℝ × List Token) :=
  let jobTokens := tokenize queryText
  let allTokens := jobTokens :: candidates.map (fun c => tokenize c.2)
  let jobTfidf := calculateTfIdf jobTokens allTokens
  candidates.map (fun c =>
    let resumeTokens := tokenize c.2
    let resumeTfidf := calculateTfIdf resumeTokens allTokens
    (c.1, similarityPercent (cosineSimilarity jobTfidf resumeTfidf),
      findMatchedKeywords jobTokens resumeTokens 10))

/-- The comparator results.sort((a, b) => b.similarity - a.similarity):
a may come before b exactly when its score is at least that of b. -/
def scoreRel (a b : String × ℝ × List Token) : Prop := b.2.1 ≤ a.2.1

open scoped Classical in
noncomputable instance : DecidableRel scoreRel := fun _ _ => Classical.propDecidable _

open scoped Classical in
/-- The ranking portion of the Deno.serve handler: validate that at least
one candidate is present, compute all scores, sort by score descending
(stable), and attach dense 1-based ranks in sorted order. -/
noncomputable def rankRun (queryText : Text) (candidates : List (String × Text)) :
    Except String (List SimilarityResult) :=
  if candidates.length = 0 then .error "Missing required fields"
  else
    let sorted := (rawResults queryText candidates).insertionSort scoreRel
    .ok (sorted.enum.map (fun p =>
      ⟨p.2.1, p.2.2.1, p.2.2.2, p.1 + 1⟩))

/-! ## Map lemmas -/

theorem JMap.get_set_self (m : JMap) (k : Token) (v : ℝ) :
    JMap.get (JMap.set m k v) k = some v := by
  induction m with
  | nil => simp [JMap.set, JMap.get]
  | cons p rest ih =>
    obtain ⟨k', v'⟩ := p
    by_cases h : k' = k
    · simp [JMap.set, JMap.get, h]
    · simp [JMap.set, JMap.get, h, ih]

theorem JMap.get_set_ne (m : JMap) (k t : Token) (v : ℝ) (h : k ≠ t) :
    JMap.get (JMap.set m k v) t = JMap.get m t := by
  induction m with
  | nil => simp [JMap.set, JMap.get, h]
  | cons p rest ih =>
    obtain ⟨k', v'⟩ := p
    by_cases hk : k' = k
    · subst hk
      simp [JMap.set, JMap.get, h]
    · simp [JMap.set, JMap.get, hk, ih]

theorem JMap.keys_set (m : JMap) (k : Token) (v : ℝ) :
    JMap.keys (JMap.set m k v)
      = if k ∈ JMap.keys m then JMap.keys m else JMap.keys m ++ [k] := by
  induction m with
  | nil => simp [JMap.set, JMap.keys]
  | cons p rest ih =>
    obtain ⟨k', v'⟩ := p
    by_cases hk : k' = k
    · subst hk
      simp [JMap.set, JMap.keys]
    · have hne : ¬ (k = k') := fun hh => hk hh.symm
      simp only [JMap.set, if_neg hk, JMap.keys, List.map_cons] at ih ⊢
      rw [ih]
      by_cases hmem : k ∈ rest.map Prod.fst
      · simp [hmem, hne]
      · simp [hmem, hne]

theorem JMap.nodup_keys_set (m : JMap) (k : Token) (v : ℝ)
    (h : (JMap.keys m).Nodup) : (JMap.keys (JMap.set m k v)).Nodup := by
  rw [JMap.keys_set]
  by_cases hmem : k ∈ JMap.keys m
  · simpa [hmem] using h
  · simp only [hmem, if_false]
    simpa [List.nodup_append] using ⟨h, hmem⟩

theorem JMap.get_eq_none_iff (m : JMap) (t : Token) :
    JMap.get m t = none ↔ t ∉ JMap.keys m := by
  induction m with
  | nil => simp [JMap.get, JMap.keys]
  | cons p rest ih =>
    obtain ⟨k', v'⟩ := p
    by_cases h : k' = t
    · simp [JMap.get, JMap.keys, h]
    · have hne : ¬ (t = k') := fun hh => h hh.symm
      simp [JMap.get, JMap.keys, h, hne, ih]

/-! ## Characterizing the three map-building loops of calculateTfIdf -/

theorem tfFold_get (ts : List Token) (c : ℝ) (m : JMap) (t : Token) :
    JMap.get (ts.foldl
        (fun m token => JMap.set m token ((JMap.get m token).getD 0 + c)) m) t
      = if t ∈ ts then some ((JMap.get m t).getD 0 + (ts.count t : ℝ) * c)
        else JMap.get m t := by
  induction ts generalizing m with
  | nil => simp
  | cons tok rest ih =>
    simp only [List.foldl_cons]
    rw [ih]
    by_cases htok : t = tok
    · subst htok
      rw [JMap.get_set_self]
      by_cases hrest : t ∈ rest
      · simp only [hrest, if_true, List.mem_cons, true_or, Option.getD_some,
          List.count_cons_self]
        push_cast
        ring_nf
      · simp only [hrest, if_false, JMap.get_set_self, List.mem_cons, true_or, if_true]
        have : rest.count t = 0 := List.count_eq_zero.mpr hrest
        simp [List.count_cons_self, this]
    · have hne : tok ≠ t := fun hh => htok hh.symm
      rw [JMap.get_set_ne _ _ _ _ hne]
      have hcount : (tok :: rest).count t = rest.count t := by
        simp [List.count_cons, hne, htok]
      by_cases hrest : t ∈ rest
      · simp [hrest, htok, hcount]
      · simp [hrest, htok, hcount]

theorem idfFold_get (ts : List Token) (allTokens : List (List Token)) (docCount : ℝ)
    (m : JMap) (t : Token) :
    JMap.get (ts.foldl
        (fun m token => JMap.set m token
          (Real.log (docCount / ((documentFrequency token allTokens : ℝ) + 1)))) m) t
      = if t ∈ ts then
          some (Real.log (docCount / ((documentFrequency t allTokens : ℝ) + 1)))
        else JMap.get m t := by
  induction ts generalizing m with
  | nil => simp
  | cons tok rest ih =>
    simp only [List.foldl_cons]
    rw [ih]
    by_cases htok : t = tok
    · subst htok
      by_cases hrest : t ∈ rest
      · simp [hrest]
      · simp [hrest, JMap.get_set_self]
    · have hne : tok ≠ t := fun hh => htok hh.symm
      rw [JMap.get_set_ne _ _ _ _ hne]
      by_cases hrest : t ∈ rest
      · simp [hrest, htok]
      · simp [hrest, htok]

theorem tfidfFold_get (l : JMap) (idfm : JMap) (m : JMap) (t : Token)
    (hnd : (JMap.keys l).Nodup) :
    JMap.get (l.foldl
        (fun m p => JMap.set m p.1 (p.2 * ((JMap.get idfm p.1).getD 0))) m) t
      = match JMap.get l t with
        | some v => some (v * ((JMap.get idfm t).getD 0))
        | none => JMap.get m t := by
  induction l generalizing m with
  | nil => simp [JMap.get]
  | cons p rest ih =>
    obtain ⟨k, v⟩ := p
    simp only [JMap.keys, List.map_cons, List.nodup_cons] at hnd
    obtain ⟨hk, hrest⟩ := hnd
    simp only [List.foldl_cons]
    rw [ih _ hrest]
    by_cases hkt : k = t
    · subst hkt
      have : JMap.get rest k = none :=
        (JMap.get_eq_none_iff rest k).mpr (by simpa [JMap.keys] using hk)
      simp [JMap.get, this, JMap.get_set_self]
    · simp only [JMap.get, if_neg hkt]
      cases hget : JMap.get rest t with
      | some w => simp
      | none => simp [JMap.get_set_ne _ _ _ _ hkt]

theorem foldl_set_keys_nodup (ts : List Token) (f : JMap → Token → ℝ) (m : JMap)
    (h : (JMap.keys m).Nodup) :
    (JMap.keys (ts.foldl (fun m token => JMap.set m token (f m token)) m)).Nodup := by
  induction ts generalizing m with
  | nil => simpa using h
  | cons tok rest ih =>
    simp only [List.foldl_cons]
    exact ih _ (JMap.nodup_keys_set _ _ _ h)

/-- Full characterization of the tf-idf vector built by calculateTfIdf:
one entry per token of the document, valued count/length times
log(docCount / (df + 1)). -/
theorem calculateTfIdf_get (tokens : List Token) (allTokens : List (List Token))
    (t : Token) :
    JMap.get (calculateTfIdf tokens allTokens) t
      = if t ∈ tokens then
          some (((tokens.count t : ℝ) / (tokens.length : ℝ)) *
            Real.log ((allTokens.length : ℝ) / ((documentFrequency t allTokens : ℝ) + 1)))
        else none := by
  have hnd : (JMap.keys (tokens.foldl
      (fun m token => JMap.set m token
        ((JMap.get m token).getD 0 + 1 / (tokens.length : ℝ))) [])).Nodup :=
    foldl_set_keys_nodup tokens
      (fun m token => (JMap.get m token).getD 0 + 1 / (tokens.length : ℝ)) []
      (by simp [JMap.keys])
  simp only [calculateTfIdf]
  rw [tfidfFold_get _ _ _ _ hnd]
  rw [tfFold_get]
  by_cases hmem : t ∈ tokens
  · simp only [hmem, if_true, JMap.get, Option.getD_none]
    rw [idfFold_get]
    simp only [hmem, if_true, Option.getD_some]
    rw [zero_add, mul_comm ((tokens.count t : ℝ)) (1 / (tokens.length : ℝ))]
    ring_nf
  · simp [hmem, JMap.get]

/-! ## Specification-side formulas (spec section 4.3) -/

/-- Term frequency as the specification words it: count of t in d divided
by the number of tokens of d. -/
noncomputable def termFrequency (t : Token) (d : List Token) : ℝ :=
  (d.count t : ℝ) / (d.length : ℝ)

/-- Inverse document frequency as the specification words it:
ln(corpus size / (documentFrequency + 1)). -/
noncomputable def inverseDocumentFrequency (t : Token) (corpus : List (List Token)) : ℝ :=
  Real.log ((corpus.length : ℝ) / ((documentFrequency t corpus : ℝ) + 1))

/-- Claim C1: for every document and corpus, the computed term-weight
vector maps each token occurring in the document to
termFrequency times inverseDocumentFrequency (with documentFrequency
counting corpus members containing the token, the document itself
included since it is a corpus member), and has no entry for any token
absent from the document. -/
theorem tfidf_weight_spec (tokens : List Token) (allTokens : List (List Token))
    (t : Token) :
    JMap.get (calculateTfIdf tokens allTokens) t
      = if t ∈ tokens then
          some (termFrequency t tokens * inverseDocumentFrequency t allTokens)
        else none := by
  rw [calculateTfIdf_get]
  rfl

/-! ## Claim C6: sign of the weights -/

/-- Counterexample to claim C6: with the corpus consisting of the query
and an identical single-token candidate, the weight of the shared token
is tf times log(2/3), which is strictly negative. -/
theorem negative_weight_counterexample :
    (JMap.get (calculateTfIdf ["abc".data] [["abc".data], ["abc".data]])
        "abc".data).getD 0 < 0 := by
  rw [calculateTfIdf_get]
  rw [if_pos (by decide : "abc".data ∈ ["abc".data])]
  have hdf : documentFrequency "abc".data [["abc".data], ["abc".data]] = 2 := by decide
  have hcount : (["abc".data].count "abc".data) = 1 := by decide
  rw [hdf, hcount]
  simp only [List.length_cons, List.length_nil, List.length_singleton, Option.getD_some]
  have hlog : Real.log ((2 : ℝ) / ((2 : ℝ) + 1)) < 0 :=
    Real.log_neg (by norm_num) (by norm_num)
  have : ((1 : ℕ) : ℝ) / ((1 : ℕ) : ℝ) = 1 := by norm_num
  push_cast
  nlinarith [hlog]

/-- Claim C6 amended: the weight of a token is non-negative whenever its
document frequency plus one does not exceed the corpus size (the idf
logarithm then has an argument of at least one); in general the weight
may be negative, as the counterexample shows. -/
theorem tfidf_weight_nonneg_when_df_small (tokens : List Token)
    (allTokens : List (List Token)) (t : Token)
    (h : documentFrequency t allTokens + 1 ≤ allTokens.length) :
    0 ≤ (JMap.get (calculateTfIdf tokens allTokens) t).getD 0 := by
  rw [calculateTfIdf_get]
  by_cases hmem : t ∈ tokens
  · rw [if_pos hmem]
    simp only [Option.getD_some]
    have htf : (0 : ℝ) ≤ (tokens.count t : ℝ) / (tokens.length : ℝ) :=
      div_nonneg (by positivity) (by positivity)
    have hpos : (0 : ℝ) < (documentFrequency t allTokens : ℝ) + 1 := by positivity
    have hratio : (1 : ℝ) ≤ (allTokens.length : ℝ) / ((documentFrequency t allTokens : ℝ) + 1) := by
      rw [le_div_iff₀ hpos, one_mul]
      exact_mod_cast h
    exact mul_nonneg htf (Real.log_nonneg hratio)
  · simp [hmem]

/-- Witness for the amended claim C6 at a concrete input where the
document frequency is small enough. -/
theorem tfidf_weight_nonneg_when_df_small_witness :
    documentFrequency "abc".data [["abc".data], ["xyz".data]] + 1
        ≤ [["abc".data], ["xyz".data]].length
      ∧ 0 ≤ (JMap.get (calculateTfIdf ["abc".data] [["abc".data], ["xyz".data]])
          "abc".data).getD 0 :=
  ⟨by decide, tfidf_weight_nonneg_when_df_small _ _ _ (by decide)⟩

/-! ## Claim C2: bounds of cosineSimilarity -/

/-- Counterexample to claim C2 as stated: for arbitrary vectors (not both
produced from one corpus) the cosine can be negative; two opposite
one-entry vectors give exactly -1. -/
theorem cosine_negative_counterexample :
    cosineSimilarity [("a".data, (1 : ℝ))] [("a".data, (-1 : ℝ))] < 0 := by
  have hdedup : ((JMap.keys [("a".data, (1 : ℝ))]
      ++ JMap.keys [("a".data, (-1 : ℝ))]).dedup) = ["a".data] := by
    simp [JMap.keys, List.dedup_cons_of_mem]
  simp only [cosineSimilarity, dotMags, hdedup, JMap.get, List.map_cons, List.map_nil,
    if_pos rfl]
  norm_num [Real.sqrt_one]

/-- Squared magnitudes accumulated by the cosineSimilarity loop are sums
of squares, hence non-negative. -/
theorem mag_sum_nonneg (l : List Token) (v : JMap) :
    0 ≤ (l.map (fun k => ((JMap.get v k).getD 0) ^ 2)).sum := by
  apply List.sum_nonneg
  intro x hx
  obtain ⟨k, _, rfl⟩ := List.mem_map.mp hx
  positivity

/-- Cauchy-Schwarz for the three accumulators of cosineSimilarity. -/
theorem abs_dot_le_sqrt_mags (vec1 vec2 : JMap) :
    |(dotMags vec1 vec2).1|
      ≤ Real.sqrt (dotMags vec1 vec2).2.1 * Real.sqrt (dotMags vec1 vec2).2.2 := by
  simp only [dotMags]
  set l := (JMap.keys vec1 ++ JMap.keys vec2).dedup with hl
  have hnd : l.Nodup := List.nodup_dedup _
  set f := fun k => (JMap.get vec1 k).getD 0 with hf
  set g := fun k => (JMap.get vec2 k).getD 0 with hg
  have hcs := Finset.sum_mul_sq_le_sq_mul_sq l.toFinset f g
  rw [List.sum_toFinset _ hnd, List.sum_toFinset _ hnd, List.sum_toFinset _ hnd] at hcs
  have hm1 : (0 : ℝ) ≤ (l.map (fun k => f k ^ 2)).sum := by
    apply List.sum_nonneg
    intro x hx
    obtain ⟨k, _, rfl⟩ := List.mem_map.mp hx
    positivity
  calc |(l.map (fun k => f k * g k)).sum|
      = Real.sqrt (((l.map (fun k => f k * g k)).sum) ^ 2) := (Real.sqrt_sq_eq_abs _).symm
    _ ≤ Real.sqrt ((l.map (fun k => f k ^ 2)).sum * (l.map (fun k => g k ^ 2)).sum) :=
        Real.sqrt_le_sqrt hcs
    _ = Real.sqrt ((l.map (fun k => f k ^ 2)).sum)
          * Real.sqrt ((l.map (fun k => g k ^ 2)).sum) := Real.sqrt_mul hm1 _

/-- Claim C2 amended: the cosine of two arbitrary vectors lies in
[-1, 1]; it is exactly 0 whenever either accumulated squared magnitude is
0; and for two term-weight vectors computed against the same corpus (as
happens inside one ranking run) it lies in [0, 1], even though the shared
idf factor can make individual weights negative. -/
theorem cosine_bounds_amended :
    (∀ vec1 vec2 : JMap,
        -1 ≤ cosineSimilarity vec1 vec2 ∧ cosineSimilarity vec1 vec2 ≤ 1)
    ∧ (∀ vec1 vec2 : JMap,
        (dotMags vec1 vec2).2.1 = 0 ∨ (dotMags vec1 vec2).2.2 = 0 →
          cosineSimilarity vec1 vec2 = 0)
    ∧ (∀ tokens1 tokens2 allTokens,
        0 ≤ cosineSimilarity (calculateTfIdf tokens1 allTokens)
              (calculateTfIdf tokens2 allTokens)) := by
  have habs := abs_dot_le_sqrt_mags
  refine ⟨fun vec1 vec2 => ?_, fun vec1 vec2 h => ?_, fun tokens1 tokens2 allTokens => ?_⟩
  · simp only [cosineSimilarity]
    split_ifs with h
    · norm_num
    · push_neg at h
      have hm1 : (0 : ℝ) < (dotMags vec1 vec2).2.1 :=
        lt_of_le_of_ne (by simpa [dotMags] using mag_sum_nonneg _ vec1) (Ne.symm h.1)
      have hm2 : (0 : ℝ) < (dotMags vec1 vec2).2.2 :=
        lt_of_le_of_ne (by simpa [dotMags] using mag_sum_nonneg _ vec2) (Ne.symm h.2)
      have hden : (0 : ℝ) < Real.sqrt (dotMags vec1 vec2).2.1
          * Real.sqrt (dotMags vec1 vec2).2.2 :=
        mul_pos (Real.sqrt_pos.mpr hm1) (Real.sqrt_pos.mpr hm2)
      obtain ⟨hlo, hhi⟩ := abs_le.mp (habs vec1 vec2)
      constructor
      · rw [le_div_iff₀ hden]
        linarith
      · rw [div_le_one hden]
        exact hhi
  · simp only [cosineSimilarity]
    rw [if_pos h]
  · simp only [cosineSimilarity]
    split_ifs with h
    · exact le_refl 0
    · push_neg at h
      have hm1 : (0 : ℝ) < (dotMags (calculateTfIdf tokens1 allTokens)
          (calculateTfIdf tokens2 allTokens)).2.1 :=
        lt_of_le_of_ne
          (by simpa [dotMags] using mag_sum_nonneg _ (calculateTfIdf tokens1 allTokens))
          (Ne.symm h.1)
      have hm2 : (0 : ℝ) < (dotMags (calculateTfIdf tokens1 allTokens)
          (calculateTfIdf tokens2 allTokens)).2.2 :=
        lt_of_le_of_ne
          (by simpa [dotMags] using mag_sum_nonneg _ (calculateTfIdf tokens2 allTokens))
          (Ne.symm h.2)
      apply div_nonneg _ (le_of_lt (mul_pos (Real.sqrt_pos.mpr hm1) (Real.sqrt_pos.mpr hm2)))
      simp only [dotMags]
      apply List.sum_nonneg
      intro x hx
      obtain ⟨k, _, rfl⟩ := List.mem_map.mp hx
      rw [calculateTfIdf_get, calculateTfIdf_get]
      by_cases h1 : k ∈ tokens1
      · by_cases h2 : k ∈ tokens2
        · simp only [h1, h2, if_true, Option.getD_some]
          rw [mul_mul_mul_comm]
          apply mul_nonneg
          · apply mul_nonneg <;> exact div_nonneg (by positivity) (by positivity)
          · exact mul_self_nonneg _
        · simp [h1, h2]
      · simp [h1]

/-- Witness for the amended claim C2: a vector paired with the empty map
has zero second magnitude and the cosine is 0; the bound conjuncts hold
there too. -/
theorem cosine_bounds_amended_witness :
    cosineSimilarity [("a".data, (1 : ℝ))] [] = 0 :=
  cosine_bounds_amended.2.1 [("a".data, (1 : ℝ))] []
    (Or.inr (by simp [dotMags, JMap.keys, JMap.get]))

/-! ## Claim C8: tokenizer output shape -/

theorem splitOnP_ne_nil (p : Char → Bool) (s : Text) : splitOnP p s ≠ [] := by
  cases s with
  | nil => simp [splitOnP]
  | cons c rest =>
    cases hp : p c with
    | true => simp [splitOnP, hp]
    | false =>
      cases hs : splitOnP p rest with
      | nil => simp [splitOnP, hp, hs]
      | cons w ws => simp [splitOnP, hp, hs]

/-- Every character of every chunk of splitOnP comes from the input and
fails the separator predicate. -/
theorem mem_splitOnP (p : Char → Bool) (s : Text) (w : Text) (c : Char)
    (hw : w ∈ splitOnP p s) (hc : c ∈ w) : c ∈ s ∧ p c = false := by
  induction s generalizing w with
  | nil =>
    simp only [splitOnP, List.mem_singleton] at hw
    subst hw
    simp at hc
  | cons ch rest ih =>
    cases hp : p ch with
    | true =>
      rw [show splitOnP p (ch :: rest) = [] :: splitOnP p rest from by
        simp [splitOnP, hp]] at hw
      rcases List.mem_cons.mp hw with hnil | hmem
      · subst hnil
        simp at hc
      · obtain ⟨h1, h2⟩ := ih _ hmem hc
        exact ⟨List.mem_cons_of_mem _ h1, h2⟩
    | false =>
      cases hs : splitOnP p rest with
      | nil => exact absurd hs (splitOnP_ne_nil p rest)
      | cons w0 ws =>
        rw [show splitOnP p (ch :: rest) = (ch :: w0) :: ws from by
          simp [splitOnP, hp, hs]] at hw
        rcases List.mem_cons.mp hw with hhd | hmem
        · subst hhd
          rcases List.mem_cons.mp hc with hch | hw0
          · subst hch
            exact ⟨List.mem_cons_self _ _, hp⟩
          · obtain ⟨h1, h2⟩ := ih w0 (by rw [hs]; exact List.mem_cons_self _ _) hw0
            exact ⟨List.mem_cons_of_mem _ h1, h2⟩
        · obtain ⟨h1, h2⟩ := ih w (by rw [hs]; exact List.mem_cons_of_mem _ hmem) hc
          exact ⟨List.mem_cons_of_mem _ h1, h2⟩

/-- Characters of tokens produced by tokenize are lower-case
alphanumeric. -/
theorem tokenize_char_isTokenChar (text : Text) (w : Token) (c : Char)
    (hw : w ∈ tokenize text) (hc : c ∈ w) : isTokenChar c = true := by
  have hw2 : w ∈ splitOnP Char.isWhitespace ((text.map Char.toLower).map tokenizeReplace) :=
    (List.mem_filter.mp hw).1
  obtain ⟨hmem, hws⟩ := mem_splitOnP _ _ _ _ hw2 hc
  obtain ⟨e, _, he⟩ := List.mem_map.mp hmem
  by_cases hkeep : (isTokenChar e || e.isWhitespace) = true
  · rw [tokenizeReplace, if_pos hkeep] at he
    subst he
    rcases Bool.or_eq_true_iff.mp hkeep with h | h
    · exact h
    · rw [h] at hws
      exact absurd hws (by simp)
  · rw [tokenizeReplace, if_neg hkeep] at he
    subst he
    simp [Char.isWhitespace] at hws

/-- Lower-case letters and digits are not upper-case letters. -/
theorem isTokenChar_not_upper (c : Char) (h : isTokenChar c = true) :
    c.isUpper = false := by
  simp only [isTokenChar, Char.isLower, Char.isDigit, Char.isUpper, Bool.or_eq_true,
    Bool.and_eq_true, decide_eq_true_eq, ge_iff_le] at *
  have e1 : ((97 : UInt32)).toBitVec.toNat = 97 := rfl
  have e2 : ((122 : UInt32)).toBitVec.toNat = 122 := rfl
  have e3 : ((90 : UInt32)).toBitVec.toNat = 90 := rfl
  have e4 : ((65 : UInt32)).toBitVec.toNat = 65 := rfl
  have e5 : ((48 : UInt32)).toBitVec.toNat = 48 := rfl
  have e6 : ((57 : UInt32)).toBitVec.toNat = 57 := rfl
  rcases h with ⟨h1, h2⟩ | ⟨h1, h2⟩ <;>
  · simp only [Bool.and_eq_false_iff, decide_eq_false_iff_not, not_le]
    simp only [UInt32.le_def, UInt32.lt_def, BitVec.le_def, BitVec.lt_def] at *
    omega

/-- Claim C8: every token produced by tokenize has length at least 3 and
consists of lower-case alphanumeric characters only (in particular no
upper-case character), and the empty input tokenizes to the empty list. -/
theorem tokenize_properties :
    (∀ text : Text, ∀ w ∈ tokenize text,
        3 ≤ w.length ∧ ∀ c ∈ w, isTokenChar c = true ∧ c.isUpper = false)
    ∧ tokenize [] = [] := by
  constructor
  · intro text w hw
    refine ⟨?_, fun c hc => ?_⟩
    · have := (List.mem_filter.mp hw).2
      simp only [decide_eq_true_eq] at this
      omega
    · have h := tokenize_char_isTokenChar text w c hw hc
      exact ⟨h, isTokenChar_not_upper c h⟩
  · rfl

/-- Witness for claim C8 on a concrete text. -/
theorem tokenize_properties_witness :
    "hello".data ∈ tokenize "Hello, World! ab".data
    ∧ (3 ≤ "hello".data.length
        ∧ ∀ c ∈ "hello".data, isTokenChar c = true ∧ c.isUpper = false) :=
  ⟨by decide, tokenize_properties.1 ("Hello, World! ab".data) ("hello".data) (by decide)⟩

/-! ## Claim C10: name extraction after cleaning -/

theorem collapseWsAux_ws_space (s : Text) (b : Bool) (c : Char)
    (hc : c ∈ collapseWsAux s b) (hws : c.isWhitespace = true) : c = ' ' := by
  induction s generalizing b with
  | nil => simp [collapseWsAux] at hc
  | cons ch rest ih =>
    by_cases hp : ch.isWhitespace = true
    · by_cases hb : b = true
      · rw [show collapseWsAux (ch :: rest) b = collapseWsAux rest true from by
          simp [collapseWsAux, hp, hb]] at hc
        exact ih true hc
      · rw [show collapseWsAux (ch :: rest) b = ' ' :: collapseWsAux rest true from by
          simp only [Bool.not_eq_true] at hb
          simp [collapseWsAux, hp, hb]] at hc
        rcases List.mem_cons.mp hc with h | h
        · exact h
        · exact ih true h
    · rw [show collapseWsAux (ch :: rest) b = ch :: collapseWsAux rest false from by
        simp [collapseWsAux, hp]] at hc
      rcases List.mem_cons.mp hc with h | h
      · subst h
        exact absurd hws hp
      · exact ih false h

theorem mem_jsTrim (s : Text) (c : Char) (hc : c ∈ jsTrim s) : c ∈ s := by
  simp only [jsTrim, List.mem_reverse] at hc
  have h1 := (List.dropWhile_suffix Char.isWhitespace).subset hc
  rw [List.mem_reverse] at h1
  exact (List.dropWhile_suffix Char.isWhitespace).subset h1

/-- Every whitespace character of the cleaned text is a plain space; in
particular the cleaned text contains no newline. -/
theorem cleanText_ws_space (t : Text) (c : Char) (hc : c ∈ cleanText t)
    (hws : c.isWhitespace = true) : c = ' ' := by
  have h1 := mem_jsTrim _ _ hc
  obtain ⟨d, hd, hdc⟩ := List.mem_map.mp h1
  by_cases hkeep : isCleanKeep d = true
  · rw [if_pos hkeep] at hdc
    subst hdc
    exact collapseWsAux_ws_space t false d hd hws
  · rw [if_neg hkeep] at hdc
    exact hdc.symm

theorem splitOnP_eq_singleton (p : Char → Bool) (l : Text)
    (h : ∀ c ∈ l, p c = false) : splitOnP p l = [l] := by
  induction l with
  | nil => rfl
  | cons ch rest ih =>
    have hch : p ch = false := h ch (List.mem_cons_self _ _)
    have hrest := ih (fun c hc => h c (List.mem_cons_of_mem _ hc))
    simp [splitOnP, hch, hrest]

theorem jsTrim_eq_rdrop (s : Text) :
    jsTrim s = List.rdropWhile Char.isWhitespace (s.dropWhile Char.isWhitespace) := rfl

theorem jsTrim_idem (s : Text) : jsTrim (jsTrim s) = jsTrim s := by
  rw [jsTrim_eq_rdrop, jsTrim_eq_rdrop]
  have h1 : List.dropWhile Char.isWhitespace (s.dropWhile Char.isWhitespace)
      = s.dropWhile Char.isWhitespace := List.dropWhile_idempotent _ _
  have h2 : List.dropWhile Char.isWhitespace
      (List.rdropWhile Char.isWhitespace (s.dropWhile Char.isWhitespace))
      = List.rdropWhile Char.isWhitespace (s.dropWhile Char.isWhitespace) := by
    obtain ⟨tail, htail⟩ := List.rdropWhile_prefix Char.isWhitespace
      (s.dropWhile Char.isWhitespace)
    cases hR : List.rdropWhile Char.isWhitespace (s.dropWhile Char.isWhitespace) with
    | nil => simp
    | cons c R =>
      rw [List.dropWhile_cons]
      have hA : s.dropWhile Char.isWhitespace = c :: (R ++ tail) := by
        rw [← htail, hR]
        simp
      have hpc : Char.isWhitespace c = false := by
        by_contra hpc
        simp only [Bool.not_eq_false] at hpc
        have hcontr := h1
        rw [hA, List.dropWhile_cons, if_pos hpc] at hcontr
        have hlen2 := congrArg List.length hcontr
        have hle : (List.dropWhile Char.isWhitespace (R ++ tail)).length
            ≤ (R ++ tail).length :=
          (List.dropWhile_sublist Char.isWhitespace).length_le
        simp only [List.length_cons] at hlen2
        omega
      simp [hpc]
  rw [h2, List.rdropWhile_idempotent]

theorem jsTrim_cleanText (t : Text) : jsTrim (cleanText t) = cleanText t :=
  jsTrim_idem _

/-- Claim C10: the cleaned text contains no newline, so extractName sees
the whole cleaned document as its single line, and a name is produced
exactly when the cleaned text is non-empty, shorter than 50 characters
and digit-free, the name being the entire cleaned text; in particular a
cleaned text of length at least 50 yields no name. -/
theorem extractName_after_cleanText (t : Text) :
    extractName (cleanText t)
      = if cleanText t ≠ [] ∧ (cleanText t).length < 50
            ∧ (cleanText t).any Char.isDigit = false
        then some (cleanText t) else none := by
  have hnl : ∀ c ∈ cleanText t, (c == '\n') = false := by
    intro c hc
    rw [beq_eq_false_iff_ne]
    intro hceq
    subst hceq
    have := cleanText_ws_space t '\n' hc (by decide)
    simp at this
  have hsplit := splitOnP_eq_singleton _ _ hnl
  have htrim := jsTrim_cleanText t
  by_cases hne : cleanText t = []
  · simp only [extractName, hsplit]
    rw [hne]
    have hj : jsTrim ([] : Text) = [] := rfl
    simp [hj]
  · have hlen : 0 < (cleanText t).length := List.length_pos.mpr hne
    simp only [extractName, hsplit, htrim]
    rw [show ([cleanText t].filter fun line => decide (0 < (jsTrim line).length))
        = [cleanText t] from by simp [htrim, hlen]]
    simp only [htrim]
    by_cases h50 : (cleanText t).length < 50
    · by_cases hdig : (cleanText t).any Char.isDigit = false
      · have hall : ∀ x ∈ cleanText t, x.isDigit = false := by
          simpa using hdig
        simp [hne, h50, hdig, hall]
      · have hnall : ¬ ∀ x ∈ cleanText t, x.isDigit = false := by
          simp only [Bool.not_eq_false, List.any_eq_true] at hdig
          obtain ⟨x, hx1, hx2⟩ := hdig
          intro hall
          rw [hall x hx1] at hx2
          exact absurd hx2 (by simp)
        simp [hnall]
    · simp [h50]

/-! ## Claim C7: the c++ vocabulary entry -/

/-- Claim C7 fails on the code (code bug): the constructed regex demands
a word boundary immediately after the second plus sign, which can never
hold before a non-word character or the end of the text, so the label
c++ occurring as a whole word is never matched; and even in the one case
where the pattern does match (a word character right after the pluses),
the output unescape step looks for two literal backslashes and therefore
pushes the still-escaped label rather than c++. -/
theorem cpp_skill_never_extracted :
    extractSkills "uses c++ daily".data = []
    ∧ extractSkills "ac c++x".data = ["c\\+\\+".data]
    ∧ "c++".data ∉ extractSkills "ac c++x".data := by
  refine ⟨by decide, by decide, by decide⟩

/-! ## Claim C9: email extraction in the pipeline -/

/-- Claim C9 fails on the code (code bug): the processing pipeline runs
cleanText before extractEmail, and cleanText replaces the plus sign and
the colon with spaces (its keep-class is word characters, whitespace, at
sign, dot and hyphen), so the pipeline extracts only hr@example.co.uk;
extractEmail applied to the raw text does return the full address, which
shows the truncation comes from the cleaning step. -/
theorem email_pipeline_truncates_plus_address :
    extractEmail (cleanText "Contact: jane.doe+hr@example.co.uk for details".data)
        = some "hr@example.co.uk".data
    ∧ extractEmail "Contact: jane.doe+hr@example.co.uk for details".data
        = some "jane.doe+hr@example.co.uk".data := by
  refine ⟨by decide, by decide⟩

/-! ## Ranking run helpers -/

instance : IsTotal (String × ℝ × List Token) scoreRel :=
  ⟨fun a b => le_total b.2.1 a.2.1⟩

instance : IsTrans (String × ℝ × List Token) scoreRel :=
  ⟨fun _ _ _ h1 h2 => le_trans h2 h1⟩

theorem rankRun_error_of_nil (q : Text) :
    rankRun q [] = Except.error "Missing required fields" := by
  unfold rankRun
  rfl

theorem rankRun_ok_of_ne_nil (q : Text) (cs : List (String × Text)) (h : cs ≠ []) :
    rankRun q cs = Except.ok
      (((List.insertionSort scoreRel (rawResults q cs)).enum).map
        (fun p => ⟨p.2.1, p.2.2.1, p.2.2.2, p.1 + 1⟩)) := by
  unfold rankRun
  rw [if_neg (by simpa [List.length_eq_zero] using h)]

theorem cosineSimilarity_nil_left (v : JMap) : cosineSimilarity [] v = 0 := by
  simp only [cosineSimilarity]
  rw [if_pos]
  left
  simp only [dotMags]
  apply List.sum_eq_zero
  intro x hx
  obtain ⟨k, _, rfl⟩ := List.mem_map.mp hx
  simp [JMap.get]

theorem cosineSimilarity_nil_right (v : JMap) : cosineSimilarity v [] = 0 := by
  simp only [cosineSimilarity]
  rw [if_pos]
  right
  simp only [dotMags]
  apply List.sum_eq_zero
  intro x hx
  obtain ⟨k, _, rfl⟩ := List.mem_map.mp hx
  simp [JMap.get]

theorem similarityPercent_zero : similarityPercent 0 = 0 := by
  have h : (0 : ℝ) * 100 * 100 + 1 / 2 = 1 / 2 := by norm_num
  rw [similarityPercent, h]
  norm_num [Int.floor_eq_iff]

theorem rawResults_empty_query :
    rawResults [] [("a", "abc".data)] = [("a", 0, [])] := by
  simp only [rawResults, List.map_cons, List.map_nil]
  rw [show tokenize [] = [] from rfl]
  rw [show calculateTfIdf [] [[], tokenize "abc".data] = [] from rfl]
  rw [cosineSimilarity_nil_left, similarityPercent_zero]
  rw [show findMatchedKeywords [] (tokenize "abc".data) 10 = [] from rfl]

theorem rawResults_empty_candidate :
    rawResults "abc".data [("a", [])] = [("a", 0, [])] := by
  simp only [rawResults, List.map_cons, List.map_nil]
  rw [show tokenize [] = [] from rfl]
  rw [show calculateTfIdf [] [tokenize "abc".data, []] = [] from rfl]
  rw [cosineSimilarity_nil_right, similarityPercent_zero]
  rw [show findMatchedKeywords (tokenize "abc".data) [] 10 = [] from rfl]

theorem rankRun_empty_query_eval :
    rankRun [] [("a", "abc".data)] = Except.ok [⟨"a", 0, [], 1⟩] := by
  rw [rankRun_ok_of_ne_nil _ _ (by simp), rawResults_empty_query]
  rfl

theorem rankRun_empty_candidate_eval :
    rankRun "abc".data [("a", [])] = Except.ok [⟨"a", 0, [], 1⟩] := by
  rw [rankRun_ok_of_ne_nil _ _ (by simp), rawResults_empty_candidate]
  rfl

/-! ## Claim C4: when the run fails -/

/-- Counterexample to claim C4 as stated: a run with empty query text,
and a run containing a candidate with empty text, both succeed (scoring
the degenerate document 0) instead of failing with InvalidInput. -/
theorem empty_text_inputs_still_rank :
    rankRun [] [("a", "abc".data)] = Except.ok [⟨"a", 0, [], 1⟩]
    ∧ rankRun "abc".data [("a", [])] = Except.ok [⟨"a", 0, [], 1⟩] :=
  ⟨rankRun_empty_query_eval, rankRun_empty_candidate_eval⟩

/-- Claim C4 amended: the ranking run fails with the single terminal
error, emitting no output, exactly when the candidate list is empty;
empty query text or empty candidate text do not fail (zero-token
documents score 0, per the DegenerateVector rule), and no candidate is
ever skipped: a successful run emits exactly one row per submitted
candidate. -/
theorem rankRun_error_iff_no_candidates (queryText : Text)
    (candidates : List (String × Text)) :
    ((∃ e, rankRun queryText candidates = Except.error e) ↔ candidates = [])
    ∧ (∀ out, rankRun queryText candidates = Except.ok out →
        out.length = candidates.length) := by
  constructor
  · constructor
    · rintro ⟨e, he⟩
      by_contra hne
      rw [rankRun_ok_of_ne_nil _ _ hne] at he
      cases he
    · rintro rfl
      exact ⟨_, rankRun_error_of_nil _⟩
  · intro out hout
    by_cases h : candidates = []
    · subst h
      rw [rankRun_error_of_nil] at hout
      cases hout
    · rw [rankRun_ok_of_ne_nil _ _ h] at hout
      simp only [Except.ok.injEq] at hout
      subst hout
      simp only [List.length_map, List.enum_length]
      rw [(List.perm_insertionSort scoreRel _).length_eq]
      simp [rawResults]

/-- Witness for the amended claim C4: on a concrete successful run the
output has exactly one row per candidate. -/
theorem rankRun_error_iff_no_candidates_witness :
    ([(⟨"a", 0, [], 1⟩ : SimilarityResult)]).length = [("a", "abc".data)].length :=
  (rankRun_error_iff_no_candidates [] [("a", "abc".data)]).2 _ rankRun_empty_query_eval

/-! ## Claim C3: invariants of the ranked output

Stability: JS Array.prototype.sort is stable and the comparator compares
scores only, so two equal-score rows keep their submission order.  The
key fact about insertion sort: a two-element equal-score sublist of the
sorted list was already a sublist of the input. -/

theorem pair_sublist_orderedInsert (x y c : String × ℝ × List Token)
    (S : List (String × ℝ × List Token)) (hxy : x.2.1 = y.2.1)
    (h : List.Sublist [x, y] (List.orderedInsert scoreRel c S)) :
    (x = c ∧ y ∈ S) ∨ List.Sublist [x, y] S := by
  induction S with
  | nil =>
    exfalso
    have hlen := h.length_le
    simp [List.orderedInsert] at hlen
  | cons s S ih =>
    rw [List.orderedInsert] at h
    by_cases hcs : scoreRel c s
    · rw [if_pos hcs] at h
      cases h with
      | cons _ h2 => exact Or.inr h2
      | cons₂ _ h2 => exact Or.inl ⟨rfl, List.singleton_sublist.mp h2⟩
    · rw [if_neg hcs] at h
      cases h with
      | cons _ h2 =>
        rcases ih h2 with ⟨hx, hy⟩ | h3
        · exact Or.inl ⟨hx, List.mem_cons_of_mem _ hy⟩
        · exact Or.inr (h3.cons s)
      | cons₂ _ h2 =>
        have hy := List.singleton_sublist.mp h2
        rcases (List.mem_orderedInsert scoreRel).mp hy with hyc | hyS
        · exfalso
          subst hyc
          exact hcs (le_of_eq hxy)
        · exact Or.inr (List.cons_sublist_cons.mpr (List.singleton_sublist.mpr hyS))

theorem pair_sublist_insertionSort (x y : String × ℝ × List Token)
    (l : List (String × ℝ × List Token)) (hxy : x.2.1 = y.2.1)
    (h : List.Sublist [x, y] (List.insertionSort scoreRel l)) :
    List.Sublist [x, y] l := by
  induction l with
  | nil => simp at h
  | cons c rest ih =>
    rw [List.insertionSort] at h
    rcases pair_sublist_orderedInsert x y c _ hxy h with ⟨hx, hy⟩ | h2
    · subst hx
      rw [List.mem_insertionSort] at hy
      exact List.cons_sublist_cons.mpr (List.singleton_sublist.mpr hy)
    · exact (ih h2).cons c

/-- Claim C3: on every successful run, each submitted candidate
identifier appears in the output with the same multiplicity as in the
submission (exactly once for distinct identifiers), the ranks read
1..N in output order with no gaps or repeats, the reported scores are
non-increasing along the output (so rank 1 holds the maximum), and two
equal-score rows appear in the output in their submission order. -/
theorem ranking_output_invariants (q : Text) (cs : List (String × Text))
    (out : List SimilarityResult) (hout : rankRun q cs = Except.ok out) :
    (∀ idStr : String,
        (out.map SimilarityResult.resumeId).count idStr
          = (cs.map Prod.fst).count idStr)
    ∧ out.map SimilarityResult.ranking = (List.range cs.length).map (fun i => i + 1)
    ∧ (out.map SimilarityResult.similarity).Pairwise (fun a b => a ≥ b)
    ∧ (∀ a b : SimilarityResult, a.similarity = b.similarity →
        List.Sublist [a, b] out →
        List.Sublist [(a.resumeId, a.similarity, a.matchedKeywords),
          (b.resumeId, b.similarity, b.matchedKeywords)] (rawResults q cs)) := by
  have hcs : cs ≠ [] := by
    intro hnil
    subst hnil
    rw [rankRun_error_of_nil] at hout
    cases hout
  rw [rankRun_ok_of_ne_nil _ _ hcs] at hout
  simp only [Except.ok.injEq] at hout
  subst hout
  have hlensort : (List.insertionSort scoreRel (rawResults q cs)).length = cs.length := by
    rw [(List.perm_insertionSort scoreRel _).length_eq]
    simp [rawResults]
  refine ⟨fun idStr => ?_, ?_, ?_, ?_⟩
  · rw [List.map_map]
    have h1 : ((List.insertionSort scoreRel (rawResults q cs)).enum).map
        (SimilarityResult.resumeId ∘ (fun p => (⟨p.2.1, p.2.2.1, p.2.2.2, p.1 + 1⟩ :
          SimilarityResult)))
        = (((List.insertionSort scoreRel (rawResults q cs)).enum).map Prod.snd).map
            (fun r => r.1) := by
      rw [List.map_map]
      rfl
    rw [h1, List.enum_map_snd]
    have h2 := ((List.perm_insertionSort scoreRel (rawResults q cs)).map
      (fun r => r.1)).count_eq idStr
    rw [h2]
    have h3 : (rawResults q cs).map (fun r => r.1) = cs.map Prod.fst := by
      simp only [rawResults, List.map_map]
      rfl
    rw [h3]
  · rw [List.map_map]
    have h1 : ((List.insertionSort scoreRel (rawResults q cs)).enum).map
        (SimilarityResult.ranking ∘ (fun p => (⟨p.2.1, p.2.2.1, p.2.2.2, p.1 + 1⟩ :
          SimilarityResult)))
        = (((List.insertionSort scoreRel (rawResults q cs)).enum).map Prod.fst).map
            (fun i => i + 1) := by
      rw [List.map_map]
      rfl
    rw [h1, List.enum_map_fst, hlensort]
  · rw [List.map_map]
    have h1 : ((List.insertionSort scoreRel (rawResults q cs)).enum).map
        (SimilarityResult.similarity ∘ (fun p => (⟨p.2.1, p.2.2.1, p.2.2.2, p.1 + 1⟩ :
          SimilarityResult)))
        = (((List.insertionSort scoreRel (rawResults q cs)).enum).map Prod.snd).map
            (fun r => r.2.1) := by
      rw [List.map_map]
      rfl
    rw [h1, List.enum_map_snd, List.pairwise_map]
    exact (List.sorted_insertionSort scoreRel (rawResults q cs)).imp (fun h => h)
  · intro a b hab hsub
    obtain ⟨l2, hl2, heq⟩ := List.sublist_map_iff.mp hsub
    cases l2 with
    | nil => simp at heq
    | cons p l3 =>
      cases l3 with
      | nil => simp at heq
      | cons q2 l4 =>
        cases l4 with
        | cons r l5 => simp at heq
        | nil =>
          simp only [List.map_cons, List.map_nil, List.cons.injEq, and_true] at heq
          obtain ⟨ha, hb⟩ := heq
          subst ha
          subst hb
          have hss : List.Sublist [p.2, q2.2]
              (List.insertionSort scoreRel (rawResults q cs)) := by
            have hm := hl2.map (Prod.snd
              (α := ℕ) (β := String × ℝ × List Token))
            rw [List.enum_map_snd] at hm
            exact hm
          exact pair_sublist_insertionSort p.2 q2.2 (rawResults q cs) hab hss

/-- Witness for claim C3 at a concrete successful run. -/
theorem ranking_output_invariants_witness :
    ([(⟨"a", 0, [], 1⟩ : SimilarityResult)].map SimilarityResult.ranking)
      = (List.range ([("a", "abc".data)].length)).map (fun i => i + 1) :=
  (ranking_output_invariants [] [("a", "abc".data)] [⟨"a", 0, [], 1⟩]
    rankRun_empty_query_eval).2.1

/-! ## Claim C5: identical candidate scores 100.00 -/

theorem similarityPercent_one : similarityPercent 1 = 100 := by
  have h : (1 : ℝ) * 100 * 100 + 1 / 2 = 10000.5 := by norm_num
  rw [similarityPercent, h]
  have hfloor : (⌊(10000.5 : ℝ)⌋ : ℤ) = 10000 := by norm_num [Int.floor_eq_iff]
  rw [hfloor]
  norm_num

theorem cosineSimilarity_self (T : List Token) (hT : T ≠ []) :
    cosineSimilarity (calculateTfIdf T [T, T]) (calculateTfIdf T [T, T]) = 1 := by
  obtain ⟨t, ht⟩ := List.exists_mem_of_ne_nil T hT
  have hdf : documentFrequency t [T, T] = 2 := by
    simp [documentFrequency, ht]
  have hw : ∃ w, JMap.get (calculateTfIdf T [T, T]) t = some w ∧ w < 0 := by
    rw [calculateTfIdf_get, if_pos ht, hdf]
    refine ⟨_, rfl, ?_⟩
    have h1 : (0 : ℝ) < (T.count t : ℝ) / (T.length : ℝ) := by
      apply div_pos
      · exact_mod_cast List.count_pos_iff.mpr ht
      · exact_mod_cast List.length_pos.mpr hT
    have h2 : Real.log ((([T, T].length : ℕ) : ℝ) / (((2 : ℕ) : ℝ) + 1)) < 0 := by
      apply Real.log_neg <;> norm_num
    exact mul_neg_of_pos_of_neg h1 h2
  obtain ⟨w, hgetw, hwneg⟩ := hw
  have htk : t ∈ JMap.keys (calculateTfIdf T [T, T]) := by
    by_contra hcontra
    rw [← JMap.get_eq_none_iff] at hcontra
    rw [hgetw] at hcontra
    cases hcontra
  have hmemK : t ∈ (JMap.keys (calculateTfIdf T [T, T])
      ++ JMap.keys (calculateTfIdf T [T, T])).dedup :=
    List.mem_dedup.mpr (List.mem_append.mpr (Or.inl htk))
  have hmem : w ^ 2 ∈ ((JMap.keys (calculateTfIdf T [T, T])
      ++ JMap.keys (calculateTfIdf T [T, T])).dedup).map
        (fun k => ((JMap.get (calculateTfIdf T [T, T]) k).getD 0) ^ 2) :=
    List.mem_map.mpr ⟨t, hmemK, by rw [hgetw]; rfl⟩
  have hnonneg : ∀ x ∈ ((JMap.keys (calculateTfIdf T [T, T])
      ++ JMap.keys (calculateTfIdf T [T, T])).dedup).map
        (fun k => ((JMap.get (calculateTfIdf T [T, T]) k).getD 0) ^ 2), 0 ≤ x := by
    intro x hx
    obtain ⟨k, _, rfl⟩ := List.mem_map.mp hx
    positivity
  have hpos : (0 : ℝ) < (dotMags (calculateTfIdf T [T, T]) (calculateTfIdf T [T, T])).2.1 := by
    have hle := List.single_le_sum hnonneg _ hmem
    have hsq : (0 : ℝ) < w ^ 2 := by
      rw [pow_two]
      exact mul_pos_of_neg_of_neg hwneg hwneg
    simp only [dotMags]
    linarith
  have hdotmag : (dotMags (calculateTfIdf T [T, T]) (calculateTfIdf T [T, T])).1
      = (dotMags (calculateTfIdf T [T, T]) (calculateTfIdf T [T, T])).2.1 := by
    simp only [dotMags, pow_two]
  have h22 : (dotMags (calculateTfIdf T [T, T]) (calculateTfIdf T [T, T])).2.2
      = (dotMags (calculateTfIdf T [T, T]) (calculateTfIdf T [T, T])).2.1 := rfl
  simp only [cosineSimilarity]
  rw [h22, if_neg (by push_neg; exact ⟨ne_of_gt hpos, ne_of_gt hpos⟩)]
  rw [hdotmag, Real.mul_self_sqrt (le_of_lt hpos)]
  exact div_self (ne_of_gt hpos)

/-- Claim C5: a candidate whose token list equals the query token list,
as the sole candidate (so the corpus is {query, candidate}), is reported
with score exactly 100.00. -/
theorem identical_candidate_scores_100 (q ctext : Text) (cid : String)
    (hq : tokenize q ≠ []) (hc : tokenize ctext = tokenize q) :
    ∃ kw, rankRun q [(cid, ctext)]
      = Except.ok [⟨cid, 100, kw, 1⟩] := by
  refine ⟨findMatchedKeywords (tokenize q) (tokenize ctext) 10, ?_⟩
  rw [rankRun_ok_of_ne_nil _ _ (by simp)]
  have hraw : rawResults q [(cid, ctext)]
      = [(cid, similarityPercent (cosineSimilarity
          (calculateTfIdf (tokenize q) [tokenize q, tokenize ctext])
          (calculateTfIdf (tokenize ctext) [tokenize q, tokenize ctext])),
         findMatchedKeywords (tokenize q) (tokenize ctext) 10)] := by
    simp only [rawResults, List.map_cons, List.map_nil]
  rw [hraw, hc, cosineSimilarity_self _ hq, similarityPercent_one]
  rfl

/-- Witness for claim C5 at a concrete query. -/
theorem identical_candidate_scores_100_witness :
    tokenize "abc".data ≠ []
    ∧ ∃ kw, rankRun "abc".data [("r1", "abc".data)]
        = Except.ok [⟨"r1", 100, kw, 1⟩] :=
  ⟨by decide, identical_candidate_scores_100 "abc".data "abc".data "r1" (by decide) rfl⟩
